import Mathlib

/-!
Shallow embedding of the m41nk3y deterministic password generator
(repository ruempel/m41nk3y) and verification of its specification claims.

Bytes are modelled as natural numbers (with explicit bounds where the
source relies on 8-bit behaviour), byte sequences as lists of naturals,
and JavaScript strings as Lean strings or lists of characters.
-/

namespace M41nk3y

/-! ## ByteCodec — src/js/convert.js -/

/-- Lowercase hexadecimal digits, as produced by JS Number.toString(16). -/
def hexDigits : List Char := "0123456789abcdef".toList

/-- Value of a hexadecimal digit character (upper- or lowercase), as accepted
by JS parseInt(s, 16); none when the character is not a hex digit. -/
def hexVal (c : Char) : Option Nat :=
  if '0' ≤ c ∧ c ≤ '9' then some (c.toNat - '0'.toNat)
  else if 'a' ≤ c ∧ c ≤ 'f' then some (c.toNat - 'a'.toNat + 10)
  else if 'A' ≤ c ∧ c ≤ 'F' then some (c.toNat - 'A'.toNat + 10)
  else none

/-- Models JS parseInt(two-character string, 16) followed by storage into a
Uint8Array slot: a string with no leading hex digit parses to NaN, which the
typed array stores as 0; a single leading hex digit parses to its value. -/
def parseHexPair (c₁ c₂ : Char) : Nat :=
  match hexVal c₁ with
  | none => 0
  | some v₁ =>
    match hexVal c₂ with
    | none => v₁
    | some v₂ => 16 * v₁ + v₂

/-- Converter.encodeFromHexString (src/js/convert.js lines 37-44): allocates a
Uint8Array of length ⌊n/2⌋ and fills slot i/2 with parseInt(substr(i,2),16).
A trailing unpaired character targets an out-of-range slot and is dropped. -/
def encodeFromHexString : List Char → List Nat
  | [] => []
  | [_] => []
  | c₁ :: c₂ :: rest => parseHexPair c₁ c₂ :: encodeFromHexString rest

/-- JS byte.toString(16) for a byte value: one digit below 16, two digits
otherwise (byte values are below 256). -/
def byteToHex (n : Nat) : List Char :=
  if n < 16 then [hexDigits.getD n '0']
  else [hexDigits.getD (n / 16) '0', hexDigits.getD (n % 16) '0']

/-- Leading-zero padding to two digits (src/js/convert.js line 57). -/
def padTwo (l : List Char) : List Char :=
  if l.length < 2 then '0' :: l else l

/-- Converter.decodeToHexString (src/js/convert.js lines 52-61): concatenation
of the two-digit hexadecimal rendering of each byte. -/
def decodeToHexString (b : List Nat) : List Char :=
  b.flatMap (fun n => padTwo (byteToHex n))

/-- Models TextEncoder.encode on a single character: standard UTF-8. -/
def utf8Bytes (c : Char) : List Nat :=
  let n := c.toNat
  if n < 0x80 then [n]
  else if n < 0x800 then [0xC0 + n / 64, 0x80 + n % 64]
  else if n < 0x10000 then [0xE0 + n / 4096, 0x80 + n / 64 % 64, 0x80 + n % 64]
  else [0xF0 + n / 262144, 0x80 + n / 4096 % 64, 0x80 + n / 64 % 64, 0x80 + n % 64]

/-- Converter.encodeFromText (src/js/convert.js lines 15-18): UTF-8 bytes of
the input string. -/
def encodeFromText (s : String) : List Nat :=
  s.toList.flatMap utf8Bytes

/-- A character String.prototype.trim removes (ASCII whitespace and the most
common Unicode space; the exotic space code points are irrelevant here). -/
def jsWhitespace (c : Char) : Bool :=
  c.toNat = 9 ∨ c.toNat = 10 ∨ c.toNat = 11 ∨ c.toNat = 12 ∨ c.toNat = 13 ∨
    c.toNat = 32 ∨ c.toNat = 160

/-- Models JS String.prototype.trim: strip whitespace from both ends. -/
def jsTrim (s : String) : String :=
  (((s.toList.dropWhile jsWhitespace).reverse.dropWhile jsWhitespace).reverse).asString

/-! ## PatternTable — js/patterns.js -/

/-- Base character class v (vowels). -/
def baseV : List Char := "aeiou".toList

/-- Base character class c (consonants). -/
def baseC : List Char := "bcdfghjklmnpqrstvwxyz".toList

/-- Base character class n (digits). -/
def baseN : List Char := "0123456789".toList

/-- Base character class o (symbols). -/
def baseO : List Char := "!#$%*@".toList

/-- Patterns.keycharacters: derived character-class alphabets, keyed by the
single-character class tokens used inside templates. Lookup of a token
outside the table is undefined in the source (the subsequent property access
throws), modelled by none. -/
def keycharacters (c : Char) : Option (List Char) :=
  match c with
  | 'V' => some (baseV.map Char.toUpper)
  | 'C' => some (baseC.map Char.toUpper)
  | 'v' => some baseV
  | 'c' => some baseC
  | 'A' => some (baseV.map Char.toUpper ++ baseC.map Char.toUpper)
  | 'a' => some (baseV ++ baseC)
  | 'n' => some baseN
  | 'o' => some baseO
  | 'x' => some (baseV.map Char.toUpper ++ baseC.map Char.toUpper ++ baseV ++ baseC ++ baseN ++ baseO)
  | 'y' => some (baseV.map Char.toUpper ++ baseC.map Char.toUpper ++ baseV ++ baseC ++ baseN)
  | ' ' => some [' ']
  | _ => none

/-- Template skeletons of pattern family c16. -/
def c16Templates : List (List Char) :=
  ["aAnoxxxxxxxxxxxa".toList, "axxxxxxxxxxxAnoa".toList,
   "axxAxxnxxoxxxxxa".toList, "axxxnxxxoxxxAxxa".toList]

/-- Template skeletons of pattern family c12. -/
def c12Templates : List (List Char) :=
  ["aAnoxxxxxxxa".toList, "axxxxxxxAnoa".toList,
   "axAxnxoxxxxa".toList, "axxnxxoxxAxa".toList]

/-- Template skeletons of pattern family c8. -/
def c8Templates : List (List Char) :=
  ["aAnoxxxa".toList, "axnxAxoa".toList, "axxoAnxa".toList, "axxxnoAa".toList]

/-- Template skeletons of pattern family y16. -/
def y16Templates : List (List Char) :=
  ["aAnyyyyyyyyyyyya".toList, "ayyyyyyyyyyyAnya".toList,
   "ayyAyynyyyyyyyya".toList, "ayyynyyyyyyyAyya".toList]

/-- Patterns.templates: template skeleton sets per pattern key. Unknown keys
are undefined in the source, modelled by none. -/
def templates (p : String) : Option (List (List Char)) :=
  match p with
  | "c16" => some c16Templates
  | "c12" => some c12Templates
  | "c8" => some c8Templates
  | "y16" => some y16Templates
  | "n6" => some ["nnnnnn".toList]
  | "n5" => some ["nnnnn".toList]
  | "n4" => some ["nnnn".toList]
  | _ => none

/-- Declared pattern keys in source declaration order; this is the order
Object.getOwnPropertyNames observes on Patterns.templates. -/
def templateKeys : List String := ["c16", "c12", "c8", "y16", "n6", "n5", "n4"]

/-- Alphabet lookup totalised to the empty list, for stating the indexing
formula of the specification. -/
def alphabetFor (c : Char) : List Char :=
  (keycharacters c).getD []

/-! ## PasswordSynthesizer — getKey, src/js/m41nk3y.js lines 177-184

The source maps over the characters of the chosen template:
characters = Patterns.keycharacters[c]; result char =
characters[keyBytes[i+1] % characters.length]; the mapped values are joined.
JS semantics modelled faithfully:
- a template character outside the keycharacters table makes the property
  access characters.length throw (Option failure, none);
- an out-of-range keyBytes index yields undefined, undefined % n is NaN,
  characters[NaN] is undefined, and Array.join renders undefined as the
  empty string, so the position contributes no character. -/

def synthChars (k : List Nat) : Nat → List Char → Option (List Char)
  | _, [] => some []
  | i, c :: rest => do
    let alpha ← keycharacters c
    let tail ← synthChars k (i + 1) rest
    match k.get? (i + 1) with
    | none => pure tail
    | some b =>
      match alpha.get? (b % alpha.length) with
      | none => pure tail
      | some ch => pure (ch :: tail)

/-- The synthesis part of getKey (src/js/m41nk3y.js lines 178-183): select the
template set for the pattern key, select the template with byte 0, then map
every template position to a character. An empty key sequence makes
templateClass[NaN] undefined and undefined.split throw, modelled by none. -/
def synthesize (k : List Nat) (p : String) : Option (List Char) := do
  let tset ← templates p
  let b₀ ← k.get? 0
  let t ← tset.get? (b₀ % tset.length)
  synthChars k 0 t

/-- Per-position synthesis formula as the specification states it: character i
of the password is alphabetFor(template[i])[ keyBytes[i+1] mod alphabet
length ]. Written from the spec sentences of claim C1, to be compared with
the source-derived synthChars. -/
def synthSpecAux (k : List Nat) : Nat → List Char → List Char
  | _, [] => []
  | i, c :: rest =>
    (alphabetFor c).getD (k.getD (i + 1) 0 % (alphabetFor c).length) ' ' ::
      synthSpecAux k (i + 1) rest

/-- A character class token that resolves to a nonempty alphabet; every token
used inside the declared templates satisfies this. -/
def goodClass (c : Char) : Bool :=
  match keycharacters c with
  | none => false
  | some a => !a.isEmpty

/-! ## Symbolic model of WebCrypto keys — src/js/m41nk3y.js

The PBKDF2 and AES primitives live in the browser (window.crypto.subtle),
not in this repository; what the source controls is which parameters flow
into each call. Keys are therefore modelled symbolically as the tree of
the import and derive calls that produced them. -/

inductive CKey where
  | imported (raw : List Nat) (algorithm : String) (usages : List String)
  | derived (base : CKey) (salt : List Nat) (iterations : Nat) (hash : String)
      (algorithm : String) (bits : Nat) (usages : List String)
deriving DecidableEq

/-- True when the key was produced by a PBKDF2 deriveKey application (as
opposed to a raw import). -/
def CKey.isDerived : CKey → Bool
  | CKey.imported .. => false
  | CKey.derived .. => true

/-- The key usages declared when the key was created. -/
def CKey.keyUsages : CKey → List String
  | CKey.imported _ _ u => u
  | CKey.derived _ _ _ _ _ _ u => u

/-- Modelled from the spec: subtle.exportKey("raw", k) on an AES key yields
its bits/8 raw bytes (32 bytes for an AES-256 key); exporting a raw import
returns the imported bytes. The export primitive itself is the browser's. -/
def CKey.exportedRawLength : CKey → Nat
  | CKey.imported raw _ _ => raw.length
  | CKey.derived _ _ _ _ _ bits _ => bits / 8

/-- deriveKey (src/js/m41nk3y.js lines 289-301): PBKDF2 with UTF-8 salt
bytes, the given iteration count, hash SHA-512, deriving an AES-CBC 256-bit
key usable for encrypt and decrypt. -/
def deriveKey (mainKey : CKey) (salt : String) (iterations : Nat) : CKey :=
  CKey.derived mainKey (encodeFromText salt) iterations "SHA-512" "AES-CBC" 256
    ["encrypt", "decrypt"]

/-- importMainKey, first store (src/js/m41nk3y.js lines 108-113):
Config.userSecret is the trimmed password text imported raw as a PBKDF2 base
key with usages deriveKey only. -/
def importMainKeyUserSecret (password : String) : CKey :=
  CKey.imported (encodeFromText (jsTrim password)) "PBKDF2" ["deriveKey"]

/-- importMainKey, second store (src/js/m41nk3y.js lines 114-116):
Config.configKeyAES derived from the user secret with salt "config" and
1000 iterations. -/
def importMainKeyConfigKey (password : String) : CKey :=
  deriveKey (importMainKeyUserSecret password) "config" 1000

/-- getKey, first line (src/js/m41nk3y.js line 174): per-service AES key
derived from the user secret with the service name as salt and
1000 + service.iterations iterations. -/
def serviceAesKey (userSecret : CKey) (name : String) (iterations : Nat) : CKey :=
  deriveKey userSecret name (1000 + iterations)

/-! ## ConfigCipher — src/js/m41nk3y.js lines 122-142 and 306-319

Modelled from the spec (section 4.2): AES-256-CBC with PKCS#7 block padding
over 16-byte blocks. The AES block permutation itself is the browser's and
enters the model as an explicit function parameter. -/

/-- Pointwise xor of two equal-length byte blocks. -/
def xorBytes (a b : List Nat) : List Nat :=
  List.zipWith (fun x y => x ^^^ y) a b

/-- PKCS#7 padding: extend to the next multiple of 16 bytes with 1..16
copies of the pad length. -/
def pkcs7pad (p : List Nat) : List Nat :=
  p ++ List.replicate (16 - p.length % 16) (16 - p.length % 16)

/-- PKCS#7 unpadding with full pad validation, failing on an invalid pad. -/
def pkcs7unpad (b : List Nat) : Option (List Nat) :=
  match b.getLast? with
  | none => none
  | some k =>
    if 1 ≤ k ∧ k ≤ 16 ∧ k ≤ b.length ∧ (b.drop (b.length - k)).all (· = k) then
      some (b.take (b.length - k))
    else none

/-- Split into consecutive 16-byte blocks, with explicit fuel so that the
recursion is structural; the fuel is always instantiated with the list
length, which bounds the number of blocks. -/
def toBlocksGo : Nat → List Nat → List (List Nat)
  | _, [] => []
  | 0, _ :: _ => []
  | fuel + 1, a :: rest => ((a :: rest).take 16) :: toBlocksGo fuel ((a :: rest).drop 16)

/-- Split a byte sequence into consecutive 16-byte blocks. -/
def toBlocks (l : List Nat) : List (List Nat) :=
  toBlocksGo l.length l

/-- CBC encryption of a block sequence: each ciphertext block is the block
cipher applied to the plaintext block xored with the previous ciphertext
block (the IV initially). -/
def cbcEnc (e : List Nat → List Nat) (prev : List Nat) : List (List Nat) → List (List Nat)
  | [] => []
  | b :: rest =>
    let c := e (xorBytes prev b)
    c :: cbcEnc e c rest

/-- CBC decryption of a block sequence. -/
def cbcDec (d : List Nat → List Nat) (prev : List Nat) : List (List Nat) → List (List Nat)
  | [] => []
  | c :: rest => xorBytes prev (d c) :: cbcDec d c rest

/-- AES-256-CBC encryption of a plaintext byte sequence: pad, chunk, chain. -/
def aesCbcEncrypt (e : List Nat → List Nat) (iv p : List Nat) : List Nat :=
  (cbcEnc e iv (toBlocks (pkcs7pad p))).flatten

/-- AES-256-CBC decryption: the browser primitive rejects an IV that is not
16 bytes and a ciphertext that is empty or not block-aligned, then unpads. -/
def aesCbcDecrypt (d : List Nat → List Nat) (iv c : List Nat) : Option (List Nat) :=
  if iv.length = 16 ∧ c.length % 16 = 0 ∧ 0 < c.length then
    pkcs7unpad (cbcDec d iv (toBlocks c)).flatten
  else none

/-- encryptConfig (src/js/m41nk3y.js lines 306-316): encrypt the payload
under the config key with a 16-byte IV, hex-encode and prepend the
hex-encoded IV. -/
def encryptConfigHex (e : List Nat → List Nat) (iv payload : List Nat) : List Char :=
  decodeToHexString iv ++ decodeToHexString (aesCbcEncrypt e iv payload)

/-- decryptConfig, decryption stage (src/js/m41nk3y.js lines 123-131): the
first 32 hex characters are the IV, the remainder the ciphertext. -/
def decryptStage (d : List Nat → List Nat) (blob : List Char) : Option (List Nat) :=
  aesCbcDecrypt d (encodeFromHexString (blob.take 32)) (encodeFromHexString (blob.drop 32))

/-! ## ServiceRegistry — js/serviceconfig.js -/

structure Service where
  name : String
  iterations : Nat
  pattern : Option String
deriving DecidableEq

/-- Config.sortServices: ascending stable sort by name (the source comparator
returns -1/1/0 on name comparison; Array.prototype.sort is stable, so a
stable sorting algorithm models it). -/
def sortServices (services : List Service) : List Service :=
  List.insertionSort (fun a b => a.name ≤ b.name) services

/-- Config.addService (js/serviceconfig.js lines 21-34): trim the name,
refuse a duplicate (no state change, nothing returned), otherwise push the
record with iterations 1 and no pattern, sort, and return the new record. -/
def addService (services : List Service) (name : String) : Option Service × List Service :=
  let candidate := jsTrim name
  if services.any (fun s => s.name = candidate) then
    (none, services)
  else
    let newService : Service := ⟨candidate, 1, none⟩
    (some newService, sortServices (services ++ [newService]))

/-- Iterated addService over a list of names, starting from a given registry. -/
def addAll (services : List Service) (names : List String) : List Service :=
  names.foldl (fun st n => (addService st n).2) services

/-- decryptConfig, full control flow (src/js/m41nk3y.js lines 122-142): on
any failure of decryption or JSON parsing the catch block leaves
Config.services untouched; only full success stores the parsed list. The
JSON parser (browser JSON.parse composed with UTF-8 decoding) enters the
model as an explicit function parameter; the Bool reports success. -/
def decryptConfigModel (parse : List Nat → Option (List Service))
    (d : List Nat → List Nat) (blob : List Char) (st : List Service) :
    List Service × Bool :=
  match decryptStage d blob with
  | none => (st, false)
  | some bytes =>
    match parse bytes with
    | none => (st, false)
    | some svcs => (svcs, true)

/-! ## Load-time normalization — deriveServiceKeys and getKey -/

/-- A JSON-ish dynamic value for the iterations field of a loaded record. -/
inductive JValue where
  | num (n : Int)
  | str (s : String)
  | null
deriving DecidableEq

/-- Value of a nonempty decimal digit run. -/
def decDigitsVal (l : List Char) : Nat :=
  l.foldl (fun acc c => 10 * acc + (c.toNat - '0'.toNat)) 0

/-- Longest decimal-digit run at the front of a character list; none when
empty (parseInt would give NaN). -/
def parseDecPart (l : List Char) : Option Nat :=
  match l.takeWhile Char.isDigit with
  | [] => none
  | ds => some (decDigitsVal ds)

/-- Models JS parseInt(value, 10): an integer number parses to itself, a
string parses its longest decimal digit run after an optional sign, null
stringifies to "null" and gives NaN. (Leading whitespace skipping is not
modelled; no claim depends on it.) -/
def parseIntDec : JValue → Option Int
  | JValue.num n => some n
  | JValue.str s =>
    match s.toList with
    | '-' :: rest => (parseDecPart rest).map (fun n => -(n : Int))
    | '+' :: rest => (parseDecPart rest).map (fun n => (n : Int))
    | l => (parseDecPart l).map (fun n => (n : Int))
  | JValue.null => none

/-- deriveServiceKeys, iterations normalization (src/js/m41nk3y.js lines
154-159): a defined and parseable field keeps its stored value (the parsed
number is used locally), otherwise the field is written back as 1. Returns
the field after the loop body and the effective iterations count. -/
def normalizeIterations (field : Option JValue) : Option JValue × Int :=
  match field with
  | some v =>
    match parseIntDec v with
    | some n => (some v, n)
    | none => (some (JValue.num 1), 1)
  | none => (some (JValue.num 1), 1)

/-- getKey, pattern defaulting (src/js/m41nk3y.js line 177): an undefined
pattern is replaced by the first declared pattern key. -/
def resolvePattern (p : Option String) : String :=
  match p with
  | some q => q
  | none => templateKeys.headD ""

/-! ## Helper lemmas -/

lemma goodClass_iff {c : Char} :
    goodClass c = true ↔ ∃ a, keycharacters c = some a ∧ a ≠ [] := by
  unfold goodClass
  cases h : keycharacters c with
  | none => simp
  | some a => cases a <;> simp

lemma templates_spec (p : String) (tset : List (List Char)) (h : templates p = some tset) :
    0 < tset.length ∧ ∀ t ∈ tset, t.length ≤ 16 ∧ ∀ c ∈ t, goodClass c = true := by
  unfold templates at h
  split at h <;> simp only [Option.some.injEq, reduceCtorEq] at h <;> subst h <;> decide

lemma synthesize_eq (k : List Nat) (p : String) (tset : List (List Char)) (b₀ : Nat)
    (t : List Char) (hp : templates p = some tset) (hb : k[0]? = some b₀)
    (ht : tset[b₀ % tset.length]? = some t) :
    synthesize k p = synthChars k 0 t := by
  simp [synthesize, hp, hb, ht]

lemma synthSpecAux_length (k : List Nat) :
    ∀ (t : List Char) (j : Nat), (synthSpecAux k j t).length = t.length
  | [], _ => rfl
  | _ :: rest, j => by simp [synthSpecAux, synthSpecAux_length k rest (j + 1)]

lemma synthChars_eq_spec (k : List Nat) :
    ∀ (t : List Char) (j : Nat), (∀ c ∈ t, goodClass c = true) →
      (∀ i, i < t.length → j + i + 1 < k.length) →
      synthChars k j t = some (synthSpecAux k j t) := by
  intro t
  induction t with
  | nil => intro j _ _; rfl
  | cons c rest ih =>
    intro j hg hb
    obtain ⟨alpha, ha, hne⟩ := goodClass_iff.mp (hg c (List.mem_cons_self c rest))
    have hk1 : j + 1 < k.length := by
      have := hb 0 (by simp)
      omega
    have hbrest : ∀ i, i < rest.length → (j + 1) + i + 1 < k.length := by
      intro i hi
      have := hb (i + 1) (by simp; omega)
      omega
    have hapos : 0 < alpha.length := List.length_pos.mpr hne
    have hget : k[j + 1]? = some k[j + 1] := List.getElem?_eq_getElem hk1
    have hmod : k[j + 1] % alpha.length < alpha.length := Nat.mod_lt _ hapos
    have hch : alpha[k[j + 1] % alpha.length]? = some alpha[k[j + 1] % alpha.length] :=
      List.getElem?_eq_getElem hmod
    simp only [synthChars, ha, Option.bind_some,
      ih (j + 1) (fun x hx => hg x (List.mem_cons_of_mem _ hx)) hbrest,
      synthSpecAux, alphabetFor, Option.getD_some, hget, hch]
    simp [List.getD_eq_getElem?_getD, hget, hch]

lemma synthSpecAux_get? (k : List Nat) :
    ∀ (t : List Char) (j i : Nat) (hi : i < t.length),
      (synthSpecAux k j t).get? i =
        some ((alphabetFor (t.get ⟨i, hi⟩)).getD
          (k.getD (j + i + 1) 0 % (alphabetFor (t.get ⟨i, hi⟩)).length) ' ') := by
  intro t
  induction t with
  | nil => intro j i hi; simp at hi
  | cons c rest ih =>
    intro j i hi
    cases i with
    | zero => rfl
    | succ m =>
      have hm : m < rest.length := by simpa using hi
      have e : j + 1 + m + 1 = j + (m + 1) + 1 := by omega
      simpa [synthSpecAux, e] using ih (j + 1) m hm

lemma synthChars_some (k : List Nat) :
    ∀ (t : List Char) (j : Nat), (∀ c ∈ t, goodClass c = true) →
      ∃ l, synthChars k j t = some l ∧ l.length = min t.length (k.length - (j + 1)) := by
  intro t
  induction t with
  | nil => intro j _; exact ⟨[], rfl, by simp⟩
  | cons c rest ih =>
    intro j hg
    obtain ⟨alpha, ha, hne⟩ := goodClass_iff.mp (hg c (List.mem_cons_self c rest))
    obtain ⟨tail, htail, hlen⟩ := ih (j + 1) (fun x hx => hg x (List.mem_cons_of_mem _ hx))
    cases hk : k[j + 1]? with
    | none =>
      refine ⟨tail, ?_, ?_⟩
      · simp [synthChars, ha, htail, hk]
      · have hlek : k.length ≤ j + 1 := List.getElem?_eq_none_iff.mp hk
        simp only [List.length_cons]
        omega
    | some b =>
      have hj : j + 1 < k.length := by
        by_contra hcon
        simp [List.getElem?_eq_none_iff.mpr (by omega : k.length ≤ j + 1)] at hk
      have hapos : 0 < alpha.length := List.length_pos.mpr hne
      have hmod : b % alpha.length < alpha.length := Nat.mod_lt _ hapos
      refine ⟨alpha[b % alpha.length] :: tail, ?_, ?_⟩
      · simp [synthChars, ha, htail, hk, List.getElem?_eq_getElem hmod]
      · simp only [List.length_cons, hlen]
        omega

lemma mem_synthSpecAux (k : List Nat) :
    ∀ (t : List Char) (j : Nat) (ch : Char), ch ∈ synthSpecAux k j t →
      ∃ c ∈ t, ∃ m, ch = (alphabetFor c).getD (m % (alphabetFor c).length) ' ' := by
  intro t
  induction t with
  | nil => intro j ch h; simp [synthSpecAux] at h
  | cons c rest ih =>
    intro j ch h
    rcases List.mem_cons.mp h with h₀ | hrest
    · exact ⟨c, List.mem_cons_self c rest, k.getD (j + 1) 0, h₀⟩
    · obtain ⟨c₁, hc₁, m, hm⟩ := ih (j + 1) ch hrest
      exact ⟨c₁, List.mem_cons_of_mem _ hc₁, m, hm⟩

lemma getD_mod_mem (a : List Char) (d : Char) (b : Nat) (h : a ≠ []) :
    a.getD (b % a.length) d ∈ a := by
  have hpos : 0 < a.length := List.length_pos.mpr h
  have hmod : b % a.length < a.length := Nat.mod_lt _ hpos
  rw [List.getD_eq_getElem?_getD, List.getElem?_eq_getElem hmod, Option.getD_some]
  exact List.getElem_mem hmod

/-! ## Claim theorems -/

/-- C1: for a 32-byte key and a declared pattern key, the template is
selected by byte 0 modulo the number of templates, and character i of the
synthesized password is alphabetFor(template[i])[ keyBytes[i+1] mod alphabet
length ]; the password is their concatenation in template order, so byte 0
is consumed only for template selection and character i reads byte i+1. -/
theorem c1_synthesis_formula (k : List Nat) (p : String) (tset : List (List Char))
    (b₀ : Nat) (t : List Char) (hk : k.length = 32) (hp : templates p = some tset)
    (hb : k[0]? = some b₀) (ht : tset[b₀ % tset.length]? = some t) :
    synthesize k p = some (synthSpecAux k 0 t) ∧
    (synthSpecAux k 0 t).length = t.length ∧
    ∀ i, (hi : i < t.length) →
      (synthSpecAux k 0 t).get? i =
        some ((alphabetFor (t.get ⟨i, hi⟩)).getD
          (k.getD (i + 1) 0 % (alphabetFor (t.get ⟨i, hi⟩)).length) ' ') := by
  have htm : t ∈ tset := List.getElem?_mem ht
  obtain ⟨hlen16, hgood⟩ := (templates_spec p tset hp).2 t htm
  have hbd : ∀ i, i < t.length → 0 + i + 1 < k.length := by
    intro i hi
    omega
  refine ⟨?_, synthSpecAux_length k t 0, ?_⟩
  · rw [synthesize_eq k p tset b₀ t hp hb ht]
    exact synthChars_eq_spec k t 0 hgood hbd
  · intro i hi
    have := synthSpecAux_get? k t 0 i hi
    simpa using this

/-- C2: the raw bytes fed to the synthesizer come from an AES-256 key
derived by PBKDF2 with SHA-512 from the session root key with salt the
UTF-8 bytes of the service name and iteration count 1000 + iterations
(32 exported bytes), while the config key is derived from the same root key
with salt "config" and iteration count 1000. -/
theorem c2_derivation_parameters (us : CKey) (s : String) (n : Nat) :
    serviceAesKey us s n =
      CKey.derived us (encodeFromText s) (1000 + n) "SHA-512" "AES-CBC" 256
        ["encrypt", "decrypt"] ∧
    (serviceAesKey us s n).exportedRawLength = 32 ∧
    ∀ password, importMainKeyConfigKey password =
      CKey.derived (importMainKeyUserSecret password) (encodeFromText "config") 1000
        "SHA-512" "AES-CBC" 256 ["encrypt", "decrypt"] :=
  ⟨rfl, rfl, fun _ => rfl⟩

/-- C3 counterexample: the session root key stored by importMainKey is a
raw import of the master-secret text, not the result of a PBKDF2
application with 1000 iterations, refuting the claim at the documented
example secret. -/
theorem c3_counterexample :
    (importMainKeyUserSecret "mT9GKQaN44AGV1vd").isDerived = false ∧
    importMainKeyUserSecret "mT9GKQaN44AGV1vd" =
      CKey.imported (encodeFromText "mT9GKQaN44AGV1vd") "PBKDF2" ["deriveKey"] := by
  constructor
  · rfl
  · decide

/-- C3 amended: the session root key is the trimmed master-secret text
imported raw as a PBKDF2 base key, with no hashing or iterations applied
at that step; its only permitted usage is further derivation, so it is never
used directly for encryption or decryption, and both the config key and
every service key are PBKDF2-SHA-512 derivations based on it. -/
theorem c3_root_key_amended (password : String) :
    importMainKeyUserSecret password =
      CKey.imported (encodeFromText (jsTrim password)) "PBKDF2" ["deriveKey"] ∧
    (importMainKeyUserSecret password).isDerived = false ∧
    (importMainKeyUserSecret password).keyUsages = ["deriveKey"] ∧
    "encrypt" ∉ (importMainKeyUserSecret password).keyUsages ∧
    "decrypt" ∉ (importMainKeyUserSecret password).keyUsages ∧
    importMainKeyConfigKey password =
      CKey.derived (importMainKeyUserSecret password) (encodeFromText "config") 1000
        "SHA-512" "AES-CBC" 256 ["encrypt", "decrypt"] ∧
    ∀ s n, serviceAesKey (importMainKeyUserSecret password) s n =
      CKey.derived (importMainKeyUserSecret password) (encodeFromText s) (1000 + n)
        "SHA-512" "AES-CBC" 256 ["encrypt", "decrypt"] :=
  ⟨rfl, rfl, rfl, by intro h; simp [CKey.keyUsages, importMainKeyUserSecret] at h,
   by intro h; simp [CKey.keyUsages, importMainKeyUserSecret] at h, rfl, fun _ _ => rfl⟩

/-- C7: for any key of at least 17 bytes, pattern c16 synthesizes exactly
16 characters and pattern n4 synthesizes exactly 4 characters, each from
the digit alphabet 0123456789. -/
theorem c7_password_lengths (k : List Nat) (hk : 17 ≤ k.length) :
    (∃ s, synthesize k "c16" = some s ∧ s.length = 16) ∧
    (∃ s, synthesize k "n4" = some s ∧ s.length = 4 ∧ ∀ ch ∈ s, ch ∈ baseN) := by
  have hkpos : 0 < k.length := by omega
  have hb : k[0]? = some k[0] := List.getElem?_eq_getElem hkpos
  constructor
  · have hp : templates "c16" = some c16Templates := rfl
    have hm : k[0] % c16Templates.length < c16Templates.length :=
      Nat.mod_lt _ (by decide)
    have ht : c16Templates[k[0] % c16Templates.length]? =
        some c16Templates[k[0] % c16Templates.length] := List.getElem?_eq_getElem hm
    set t := c16Templates[k[0] % c16Templates.length] with hteq
    have htm : t ∈ c16Templates := List.getElem_mem hm
    obtain ⟨hlen16, hgood⟩ := (templates_spec _ c16Templates hp).2 t htm
    have hbnd : ∀ i, i < t.length → 0 + i + 1 < k.length := by
      intro i hi
      omega
    refine ⟨synthSpecAux k 0 t, ?_, ?_⟩
    · rw [synthesize_eq k "c16" c16Templates k[0] t hp hb ht]
      exact synthChars_eq_spec k t 0 hgood hbnd
    · rw [synthSpecAux_length k t 0]
      have h16 : ∀ u ∈ c16Templates, u.length = 16 := by decide
      exact h16 t htm
  · have hp : templates "n4" = some ["nnnn".toList] := rfl
    have ht : (["nnnn".toList] : List (List Char))[k[0] % 1]? = some "nnnn".toList := by
      simp [Nat.mod_one]
    have hgood : ∀ c ∈ "nnnn".toList, goodClass c = true := by decide
    have hbnd : ∀ i, i < "nnnn".toList.length → 0 + i + 1 < k.length := by
      intro i hi
      simp at hi
      omega
    refine ⟨synthSpecAux k 0 "nnnn".toList, ?_, ?_, ?_⟩
    · rw [synthesize_eq k "n4" ["nnnn".toList] k[0] "nnnn".toList hp hb (by simpa using ht)]
      exact synthChars_eq_spec k "nnnn".toList 0 hgood hbnd
    · rw [synthSpecAux_length]
      rfl
    · intro ch hch
      obtain ⟨c, hc, m, hm⟩ := mem_synthSpecAux k "nnnn".toList 0 ch hch
      have hl : ("nnnn".toList : List Char) = ['n', 'n', 'n', 'n'] := rfl
      rw [hl] at hc
      simp at hc
      subst hc hm
      exact getD_mod_mem baseN ' ' m (by decide)

/-- C9 counterexample: with a 1-byte key (fewer than templateLength + 1 =
5 bytes for pattern n4) synthesis does not fail with any error; it returns
normally with an empty password, the out-of-range positions silently
contributing no character. -/
theorem c9_counterexample :
    ([0] : List Nat).length < 4 + 1 ∧ synthesize [0] "n4" = some [] := by
  constructor
  · decide
  · decide

/-- C9 amended: getKey performs no bounds check. For any nonempty key and
declared pattern, synthesis succeeds; positions whose key index falls past
the end of the key contribute no character, so the output has
min(templateLength, keyLength - 1) characters, and when the key holds at
least templateLength + 1 bytes every index is in range and the output has
full template length. -/
theorem c9_no_bounds_check (k : List Nat) (p : String) (tset : List (List Char))
    (b₀ : Nat) (t : List Char) (hp : templates p = some tset) (hb : k[0]? = some b₀)
    (ht : tset[b₀ % tset.length]? = some t) :
    ∃ s, synthesize k p = some s ∧ s.length = min t.length (k.length - 1) ∧
      (t.length + 1 ≤ k.length → s.length = t.length) := by
  have htm : t ∈ tset := List.getElem?_mem ht
  obtain ⟨hlen16, hgood⟩ := (templates_spec p tset hp).2 t htm
  obtain ⟨l, hl, hlen⟩ := synthChars_some k t 0 hgood
  refine ⟨l, ?_, ?_, ?_⟩
  · rw [synthesize_eq k p tset b₀ t hp hb ht]
    exact hl
  · simpa using hlen
  · intro hge
    rw [hlen]
    omega

/-- C1 witness: the formula instantiated on the key 0,1,...,31 and pattern
n4. -/
theorem c1_synthesis_formula_witness :
    synthesize (List.range 32) "n4" =
      some (synthSpecAux (List.range 32) 0 "nnnn".toList) :=
  (c1_synthesis_formula (List.range 32) "n4" ["nnnn".toList] 0 "nnnn".toList
    (by decide) rfl (by decide) (by decide)).1

/-- C7 witness: the length invariants instantiated on the key 0,1,...,16. -/
theorem c7_password_lengths_witness :
    (∃ s, synthesize (List.range 17) "c16" = some s ∧ s.length = 16) ∧
    (∃ s, synthesize (List.range 17) "n4" = some s ∧ s.length = 4 ∧
      ∀ ch ∈ s, ch ∈ baseN) :=
  c7_password_lengths (List.range 17) (by decide)

/-- C9 witness: on a 3-byte key and pattern n4 synthesis succeeds with
min(4, 2) = 2 characters. -/
theorem c9_no_bounds_check_witness :
    ∃ s, synthesize [0, 1, 2] "n4" = some s ∧
      s.length = min "nnnn".toList.length (([0, 1, 2] : List Nat).length - 1) ∧
      ("nnnn".toList.length + 1 ≤ ([0, 1, 2] : List Nat).length →
        s.length = "nnnn".toList.length) :=
  c9_no_bounds_check [0, 1, 2] "n4" ["nnnn".toList] 0 "nnnn".toList rfl
    (by decide) (by decide)

/-- C8: an absent or unparseable iterations field is written back as 1 at
load time while a parseable field keeps its stored value, and an absent
pattern resolves at synthesis time to the first declared pattern key, c16,
while a present pattern is kept. -/
theorem c8_load_defaults :
    normalizeIterations none = (some (JValue.num 1), 1) ∧
    (∀ v, parseIntDec v = none → normalizeIterations (some v) = (some (JValue.num 1), 1)) ∧
    (∀ v n, parseIntDec v = some n → normalizeIterations (some v) = (some v, n)) ∧
    resolvePattern none = templateKeys.headD "" ∧
    templateKeys.headD "" = "c16" ∧
    (∀ q, resolvePattern (some q) = q) := by
  refine ⟨rfl, ?_, ?_, rfl, rfl, fun _ => rfl⟩
  · intro v hv
    simp [normalizeIterations, hv]
  · intro v n hv
    simp [normalizeIterations, hv]

/-- C8 witness: a string field that does not parse is rewritten to 1, a
numeric field keeps its value, an absent pattern resolves to c16. -/
theorem c8_load_defaults_witness :
    normalizeIterations (some (JValue.str "abc")) = (some (JValue.num 1), 1) ∧
    normalizeIterations (some (JValue.num 5)) = (some (JValue.num 5), 5) ∧
    resolvePattern none = "c16" :=
  ⟨c8_load_defaults.2.1 (JValue.str "abc") (by decide),
   c8_load_defaults.2.2.1 (JValue.num 5) 5 (by decide),
   c8_load_defaults.2.2.2.2.1 ▸ c8_load_defaults.2.2.2.1⟩

set_option maxRecDepth 4096 in
lemma byteHex_spec : ∀ n, n < 256 → (padTwo (byteToHex n)).length = 2 ∧
    encodeFromHexString (padTwo (byteToHex n)) = [n] ∧
    ∀ c ∈ padTwo (byteToHex n), c ∈ hexDigits := by decide

lemma hex_codec_spec (b : List Nat) (hb : ∀ x ∈ b, x < 256) :
    (decodeToHexString b).length = 2 * b.length ∧
    (∀ c ∈ decodeToHexString b, c ∈ hexDigits) ∧
    encodeFromHexString (decodeToHexString b) = b := by
  induction b with
  | nil => exact ⟨rfl, by simp [decodeToHexString], rfl⟩
  | cons x rest ih =>
    have hx : x < 256 := hb x (List.mem_cons_self x rest)
    obtain ⟨h2, henc, hmem⟩ := byteHex_spec x hx
    obtain ⟨ih1, ih2, ih3⟩ := ih (fun y hy => hb y (List.mem_cons_of_mem _ hy))
    have hcons : decodeToHexString (x :: rest) =
        padTwo (byteToHex x) ++ decodeToHexString rest := rfl
    obtain ⟨c₁, c₂, hc⟩ := List.length_eq_two.mp h2
    refine ⟨?_, ?_, ?_⟩
    · rw [hcons, List.length_append, h2, ih1]
      simp [List.length_cons]
      omega
    · intro c hcm
      rw [hcons] at hcm
      rcases List.mem_append.mp hcm with h | h
      · exact hmem c h
      · exact ih2 c h
    · rw [hc] at henc
      have hpair : parseHexPair c₁ c₂ = x := by
        have he : encodeFromHexString [c₁, c₂] = [parseHexPair c₁ c₂] := rfl
        rw [he] at henc
        exact List.singleton_injective henc
      rw [hcons, hc]
      show parseHexPair c₁ c₂ :: encodeFromHexString (decodeToHexString rest) = x :: rest
      rw [hpair, ih3]

/-- C10: hex encoding of a byte sequence yields exactly two lowercase hex
digits per byte, and decoding the encoding returns the original bytes. -/
theorem c10_hex_roundtrip (b : List Nat) (hb : ∀ x ∈ b, x < 256) :
    (decodeToHexString b).length = 2 * b.length ∧
    (∀ c ∈ decodeToHexString b, c ∈ hexDigits) ∧
    encodeFromHexString (decodeToHexString b) = b :=
  hex_codec_spec b hb

/-- C10 witness: the round trip instantiated on the bytes 0, 255, 16, 9. -/
theorem c10_hex_roundtrip_witness :
    (decodeToHexString [0, 255, 16, 9]).length = 2 * ([0, 255, 16, 9] : List Nat).length ∧
    (∀ c ∈ decodeToHexString [0, 255, 16, 9], c ∈ hexDigits) ∧
    encodeFromHexString (decodeToHexString [0, 255, 16, 9]) = [0, 255, 16, 9] :=
  c10_hex_roundtrip [0, 255, 16, 9] (by decide)

lemma xorBytes_length (a b : List Nat) :
    (xorBytes a b).length = min a.length b.length := by
  simp [xorBytes]

lemma xorBytes_cancel : ∀ (a b : List Nat), a.length = b.length →
    xorBytes a (xorBytes a b) = b
  | [], [], _ => rfl
  | x :: a, y :: b, h => by
    simp only [xorBytes, List.zipWith_cons_cons, Nat.xor_cancel_left, List.cons.injEq,
      true_and]
    exact xorBytes_cancel a b (by simpa using h)

lemma xorBytes_bytes : ∀ (a b : List Nat), (∀ v ∈ a, v < 256) → (∀ v ∈ b, v < 256) →
    ∀ v ∈ xorBytes a b, v < 256
  | [], _, _, _ => by simp [xorBytes]
  | _ :: _, [], _, _ => by simp [xorBytes]
  | x :: a, y :: b, ha, hb => by
    intro v hv
    rcases List.mem_cons.mp hv with h | h
    · subst h
      have hx : x < 2 ^ 8 := ha x (List.mem_cons_self x a)
      have hy : y < 2 ^ 8 := hb y (List.mem_cons_self y b)
      exact Nat.xor_lt_two_pow hx hy
    · exact xorBytes_bytes a b (fun v hv => ha v (List.mem_cons_of_mem _ hv))
        (fun v hv => hb v (List.mem_cons_of_mem _ hv)) v h

lemma cbcDec_cbcEnc (e d : List Nat → List Nat)
    (hinv : ∀ x, x.length = 16 → d (e x) = x)
    (hlen : ∀ x, x.length = 16 → (e x).length = 16) :
    ∀ (bs : List (List Nat)) (prev : List Nat), (∀ b ∈ bs, b.length = 16) →
      prev.length = 16 → cbcDec d prev (cbcEnc e prev bs) = bs := by
  intro bs
  induction bs with
  | nil => intro prev _ _; rfl
  | cons b rest ih =>
    intro prev hbs hprev
    have hb : b.length = 16 := hbs b (List.mem_cons_self b rest)
    have hxb : (xorBytes prev b).length = 16 := by
      rw [xorBytes_length, hprev, hb]
      rfl
    have hc : (e (xorBytes prev b)).length = 16 := hlen _ hxb
    simp only [cbcEnc, cbcDec, List.cons.injEq]
    constructor
    · rw [hinv _ hxb]
      exact xorBytes_cancel prev b (by rw [hprev, hb])
    · exact ih _ (fun x hx => hbs x (List.mem_cons_of_mem _ hx)) hc

lemma cbcEnc_block_lengths (e : List Nat → List Nat)
    (hlen : ∀ x, x.length = 16 → (e x).length = 16) :
    ∀ (bs : List (List Nat)) (prev : List Nat), (∀ b ∈ bs, b.length = 16) →
      prev.length = 16 → ∀ cb ∈ cbcEnc e prev bs, cb.length = 16 := by
  intro bs
  induction bs with
  | nil => intro prev _ _ cb hcb; simp [cbcEnc] at hcb
  | cons b rest ih =>
    intro prev hbs hprev cb hcb
    have hb : b.length = 16 := hbs b (List.mem_cons_self b rest)
    have hxb : (xorBytes prev b).length = 16 := by
      rw [xorBytes_length, hprev, hb]
      rfl
    have hc : (e (xorBytes prev b)).length = 16 := hlen _ hxb
    rcases List.mem_cons.mp hcb with h | h
    · rw [h]
      exact hc
    · exact ih _ (fun x hx => hbs x (List.mem_cons_of_mem _ hx)) hc cb h

lemma cbcEnc_block_bytes (e : List Nat → List Nat)
    (hlen : ∀ x, x.length = 16 → (e x).length = 16)
    (hbytes : ∀ x, x.length = 16 → (∀ v ∈ x, v < 256) → ∀ v ∈ e x, v < 256) :
    ∀ (bs : List (List Nat)) (prev : List Nat), (∀ b ∈ bs, b.length = 16) →
      (∀ b ∈ bs, ∀ v ∈ b, v < 256) → prev.length = 16 → (∀ v ∈ prev, v < 256) →
      ∀ cb ∈ cbcEnc e prev bs, ∀ v ∈ cb, v < 256 := by
  intro bs
  induction bs with
  | nil => intro prev _ _ _ _ cb hcb; simp [cbcEnc] at hcb
  | cons b rest ih =>
    intro prev hbs hbb hprev hprevb cb hcb
    have hb : b.length = 16 := hbs b (List.mem_cons_self b rest)
    have hxb : (xorBytes prev b).length = 16 := by
      rw [xorBytes_length, hprev, hb]
      rfl
    have hxbb : ∀ v ∈ xorBytes prev b, v < 256 :=
      xorBytes_bytes prev b hprevb (hbb b (List.mem_cons_self b rest))
    have hc : (e (xorBytes prev b)).length = 16 := hlen _ hxb
    have hcb256 : ∀ v ∈ e (xorBytes prev b), v < 256 := hbytes _ hxb hxbb
    rcases List.mem_cons.mp hcb with h | h
    · rw [h]
      exact hcb256
    · exact ih _ (fun x hx => hbs x (List.mem_cons_of_mem _ hx))
        (fun x hx => hbb x (List.mem_cons_of_mem _ hx)) hc hcb256 cb h

lemma pkcs7pad_length_mod (p : List Nat) : (pkcs7pad p).length % 16 = 0 := by
  have h : p.length % 16 < 16 := Nat.mod_lt _ (by omega)
  simp only [pkcs7pad, List.length_append, List.length_replicate]
  omega

lemma pkcs7pad_ne_nil (p : List Nat) : pkcs7pad p ≠ [] := by
  have h : p.length % 16 < 16 := Nat.mod_lt _ (by omega)
  simp only [pkcs7pad]
  intro hcon
  have := congrArg List.length hcon
  simp at this
  omega

lemma pkcs7pad_bytes (p : List Nat) (hp : ∀ v ∈ p, v < 256) :
    ∀ v ∈ pkcs7pad p, v < 256 := by
  intro v hv
  rcases List.mem_append.mp hv with h | h
  · exact hp v h
  · have := List.eq_of_mem_replicate h
    have hm : p.length % 16 < 16 := Nat.mod_lt _ (by omega)
    omega

lemma pkcs7unpad_pad (p : List Nat) : pkcs7unpad (pkcs7pad p) = some p := by
  set m := 16 - p.length % 16 with hm
  have hmod : p.length % 16 < 16 := Nat.mod_lt _ (by omega)
  have hm1 : 1 ≤ m := by omega
  have hm16 : m ≤ 16 := by omega
  have hlast : (pkcs7pad p).getLast? = some m := by
    simp only [pkcs7pad, ← hm, List.getLast?_append, List.getLast?_replicate]
    have : ¬ m = 0 := by omega
    simp [this]
  have hlen : (pkcs7pad p).length = p.length + m := by
    simp [pkcs7pad, ← hm]
  have hdrop : (pkcs7pad p).drop ((pkcs7pad p).length - m) = List.replicate m m := by
    rw [hlen]
    simp only [pkcs7pad, ← hm, Nat.add_sub_cancel]
    exact List.drop_left' rfl
  have htake : (pkcs7pad p).take ((pkcs7pad p).length - m) = p := by
    rw [hlen]
    simp only [pkcs7pad, ← hm, Nat.add_sub_cancel]
    exact List.take_left' rfl
  have hall : ((pkcs7pad p).drop ((pkcs7pad p).length - m)).all (· = m) = true := by
    rw [hdrop]
    simp [List.all_eq_true, List.mem_replicate]
  have hred : pkcs7unpad (pkcs7pad p) =
      if 1 ≤ m ∧ m ≤ 16 ∧ m ≤ (pkcs7pad p).length ∧
          ((pkcs7pad p).drop ((pkcs7pad p).length - m)).all (· = m) then
        some ((pkcs7pad p).take ((pkcs7pad p).length - m))
      else none := by
    rw [pkcs7unpad, hlast]
  rw [hred, if_pos ⟨hm1, hm16, by omega, hall⟩, htake]

lemma flatten_toBlocksGo : ∀ (fuel : Nat) (l : List Nat), l.length ≤ fuel →
    (toBlocksGo fuel l).flatten = l := by
  intro fuel
  induction fuel with
  | zero =>
    intro l hl
    have : l = [] := List.eq_nil_of_length_eq_zero (by omega)
    subst this
    rfl
  | succ f ih =>
    intro l hl
    cases l with
    | nil => rfl
    | cons a rest =>
      have hl' : rest.length + 1 ≤ f + 1 := by simpa using hl
      simp only [toBlocksGo, List.flatten_cons]
      rw [ih _ (by simp only [List.length_drop, List.length_cons]; omega)]
      exact List.take_append_drop 16 (a :: rest)

lemma toBlocksGo_block_lengths : ∀ (fuel : Nat) (l : List Nat), l.length ≤ fuel →
    l.length % 16 = 0 → ∀ b ∈ toBlocksGo fuel l, b.length = 16 := by
  intro fuel
  induction fuel with
  | zero =>
    intro l hl _ b hb
    have : l = [] := List.eq_nil_of_length_eq_zero (by omega)
    subst this
    simp [toBlocksGo] at hb
  | succ f ih =>
    intro l hl hmod b hb
    cases l with
    | nil => simp [toBlocksGo] at hb
    | cons a rest =>
      have hl' : rest.length + 1 ≤ f + 1 := by simpa using hl
      have hmod' : (rest.length + 1) % 16 = 0 := by simpa using hmod
      have h16 : 16 ≤ rest.length + 1 := by omega
      rcases List.mem_cons.mp hb with h | h
      · rw [h, List.length_take]
        simp only [List.length_cons]
        omega
      · refine ih _ (by simp only [List.length_drop, List.length_cons]; omega) ?_ b h
        simp only [List.length_drop, List.length_cons]
        omega

lemma toBlocksGo_block_mem : ∀ (fuel : Nat) (l : List Nat),
    ∀ b ∈ toBlocksGo fuel l, ∀ v ∈ b, v ∈ l := by
  intro fuel
  induction fuel with
  | zero =>
    intro l b hb
    cases l <;> simp [toBlocksGo] at hb
  | succ f ih =>
    intro l b hb v hv
    cases l with
    | nil => simp [toBlocksGo] at hb
    | cons a rest =>
      rcases List.mem_cons.mp hb with h | h
      · exact List.take_subset 16 _ (h ▸ hv)
      · exact List.drop_subset 16 _ (ih _ b h v hv)

lemma toBlocksGo_flatten : ∀ (bs : List (List Nat)) (fuel : Nat),
    bs.flatten.length ≤ fuel → (∀ b ∈ bs, b.length = 16) →
    toBlocksGo fuel bs.flatten = bs := by
  intro bs
  induction bs with
  | nil => intro fuel _ _; cases fuel <;> rfl
  | cons b rest ih =>
    intro fuel hf hbs
    have hb : b.length = 16 := hbs b (List.mem_cons_self b rest)
    have hflat : (b :: rest).flatten = b ++ rest.flatten := List.flatten_cons ..
    have hlen : (b ++ rest.flatten).length = 16 + rest.flatten.length := by
      simp [hb]
    cases fuel with
    | zero =>
      exfalso
      rw [hflat] at hf
      omega
    | succ f =>
      cases b with
      | nil => simp at hb
      | cons x xs =>
        rw [hflat]
        show toBlocksGo (f + 1) (x :: (xs ++ rest.flatten)) = (x :: xs) :: rest
        simp only [toBlocksGo]
        have htake : (x :: (xs ++ rest.flatten)).take 16 = x :: xs := by
          have : (x :: xs) ++ rest.flatten = x :: (xs ++ rest.flatten) := rfl
          rw [← this]
          exact List.take_left' hb
        have hdrop : (x :: (xs ++ rest.flatten)).drop 16 = rest.flatten := by
          have : (x :: xs) ++ rest.flatten = x :: (xs ++ rest.flatten) := rfl
          rw [← this]
          exact List.drop_left' hb
        rw [htake, hdrop]
        rw [ih f (by rw [hflat] at hf; omega) (fun u hu => hbs u (List.mem_cons_of_mem _ hu))]

lemma flatten_toBlocks (l : List Nat) : (toBlocks l).flatten = l :=
  flatten_toBlocksGo l.length l (le_refl _)

lemma toBlocks_block_lengths (l : List Nat) (hmod : l.length % 16 = 0) :
    ∀ b ∈ toBlocks l, b.length = 16 :=
  toBlocksGo_block_lengths l.length l (le_refl _) hmod

lemma toBlocks_flatten (bs : List (List Nat)) (h : ∀ b ∈ bs, b.length = 16) :
    toBlocks bs.flatten = bs :=
  toBlocksGo_flatten bs bs.flatten.length (le_refl _) h

lemma toBlocks_mem (l : List Nat) : ∀ b ∈ toBlocks l, ∀ v ∈ b, v ∈ l :=
  toBlocksGo_block_mem l.length l

lemma flatten_16_length (bs : List (List Nat)) (h : ∀ b ∈ bs, b.length = 16) :
    bs.flatten.length = 16 * bs.length := by
  induction bs with
  | nil => rfl
  | cons b rest ih =>
    simp only [List.flatten_cons, List.length_append, List.length_cons,
      h b (List.mem_cons_self b rest), ih (fun u hu => h u (List.mem_cons_of_mem _ hu))]
    ring

lemma aesCbc_roundtrip (e d : List Nat → List Nat)
    (hinv : ∀ x, x.length = 16 → d (e x) = x)
    (hlen : ∀ x, x.length = 16 → (e x).length = 16)
    (iv p : List Nat) (hiv : iv.length = 16) :
    aesCbcDecrypt d iv (aesCbcEncrypt e iv p) = some p := by
  have hpadmod : (pkcs7pad p).length % 16 = 0 := pkcs7pad_length_mod p
  have hblocks : ∀ b ∈ toBlocks (pkcs7pad p), b.length = 16 :=
    toBlocks_block_lengths _ hpadmod
  have hcblocks : ∀ cb ∈ cbcEnc e iv (toBlocks (pkcs7pad p)), cb.length = 16 :=
    cbcEnc_block_lengths e hlen _ iv hblocks hiv
  have hctlen : (aesCbcEncrypt e iv p).length =
      16 * (cbcEnc e iv (toBlocks (pkcs7pad p))).length :=
    flatten_16_length _ hcblocks
  have hblocksne : toBlocks (pkcs7pad p) ≠ [] := by
    intro hcon
    have hfl := flatten_toBlocks (pkcs7pad p)
    rw [hcon] at hfl
    exact pkcs7pad_ne_nil p hfl.symm
  have hcbne : cbcEnc e iv (toBlocks (pkcs7pad p)) ≠ [] := by
    cases hbs : toBlocks (pkcs7pad p) with
    | nil => exact absurd hbs hblocksne
    | cons b rest => simp [cbcEnc]
  have hctpos : 0 < (aesCbcEncrypt e iv p).length := by
    rw [hctlen]
    have := List.length_pos.mpr hcbne
    omega
  have hctmod : (aesCbcEncrypt e iv p).length % 16 = 0 := by
    rw [hctlen]
    omega
  rw [aesCbcDecrypt, if_pos ⟨hiv, hctmod, hctpos⟩]
  have hback : toBlocks (aesCbcEncrypt e iv p) = cbcEnc e iv (toBlocks (pkcs7pad p)) :=
    toBlocks_flatten _ hcblocks
  rw [hback, cbcDec_cbcEnc e d hinv hlen _ iv hblocks hiv, flatten_toBlocks,
    pkcs7unpad_pad]

lemma encodeFromHexString_length : ∀ (s : List Char),
    (encodeFromHexString s).length = s.length / 2
  | [] => rfl
  | [c] => by simp [encodeFromHexString]
  | c₁ :: c₂ :: rest => by
    simp only [encodeFromHexString, List.length_cons, encodeFromHexString_length rest]
    omega

/-- C4: decrypting (with the same key, modelled by an inverse block cipher
pair, and the same 16-byte IV) the hex blob produced by config encryption of
any plaintext byte sequence returns exactly that plaintext, through CBC
chaining, PKCS#7 padding, and the hex IV-prepend wire format. -/
theorem c4_config_roundtrip (e d : List Nat → List Nat) (iv p : List Nat)
    (hinv : ∀ x, x.length = 16 → d (e x) = x)
    (hlen : ∀ x, x.length = 16 → (e x).length = 16)
    (hbytes : ∀ x, x.length = 16 → (∀ v ∈ x, v < 256) → ∀ v ∈ e x, v < 256)
    (hiv : iv.length = 16) (hivb : ∀ v ∈ iv, v < 256) (hpb : ∀ v ∈ p, v < 256) :
    decryptStage d (encryptConfigHex e iv p) = some p := by
  obtain ⟨hivlen2, _, hivdec⟩ := hex_codec_spec iv hivb
  have hpadb : ∀ v ∈ pkcs7pad p, v < 256 := pkcs7pad_bytes p hpb
  have hblocks : ∀ b ∈ toBlocks (pkcs7pad p), b.length = 16 :=
    toBlocks_block_lengths _ (pkcs7pad_length_mod p)
  have hblockbytes : ∀ b ∈ toBlocks (pkcs7pad p), ∀ v ∈ b, v < 256 :=
    fun b hb v hv => hpadb v (toBlocks_mem _ b hb v hv)
  have hctb : ∀ v ∈ aesCbcEncrypt e iv p, v < 256 := by
    intro v hv
    obtain ⟨cb, hcb, hvcb⟩ := List.mem_flatten.mp hv
    exact cbcEnc_block_bytes e hlen hbytes _ iv hblocks hblockbytes hiv hivb cb hcb v hvcb
  obtain ⟨hctlen2, _, hctdec⟩ := hex_codec_spec (aesCbcEncrypt e iv p) hctb
  have htk : (encryptConfigHex e iv p).take 32 = decodeToHexString iv := by
    rw [encryptConfigHex]
    exact List.take_left' (by rw [hivlen2, hiv])
  have hdr : (encryptConfigHex e iv p).drop 32 = decodeToHexString (aesCbcEncrypt e iv p) := by
    rw [encryptConfigHex]
    exact List.drop_left' (by rw [hivlen2, hiv])
  rw [decryptStage, htk, hdr, hivdec, hctdec]
  exact aesCbc_roundtrip e d hinv hlen iv p hiv

/-- C4 witness: the round trip instantiated with the identity block cipher
pair, the zero IV, and the empty payload. -/
theorem c4_config_roundtrip_witness :
    decryptStage id (encryptConfigHex id (List.replicate 16 0) []) = some [] :=
  c4_config_roundtrip id id (List.replicate 16 0) [] (fun _ _ => rfl)
    (fun _ h => h) (fun _ _ hb => hb) (by decide) (by decide) (by decide)

/-- C5: whenever decryption or JSON parsing fails the services registry
keeps its previous value; the registry is replaced only when both
decryption and parsing fully succeed; and every blob shorter than 32 hex
characters fails (its extracted IV is shorter than 16 bytes), without any
out-of-range read. -/
theorem c5_registry_on_failure (parse : List Nat → Option (List Service))
    (d : List Nat → List Nat) (blob : List Char) (st : List Service) :
    ((decryptConfigModel parse d blob st).2 = false →
      (decryptConfigModel parse d blob st).1 = st) ∧
    ((decryptConfigModel parse d blob st).2 = true →
      ∃ bytes, decryptStage d blob = some bytes ∧
        parse bytes = some (decryptConfigModel parse d blob st).1) ∧
    (blob.length < 32 →
      (decryptConfigModel parse d blob st).2 = false ∧
      (decryptConfigModel parse d blob st).1 = st) := by
  have hshort : blob.length < 32 → decryptStage d blob = none := by
    intro hb
    have htk : blob.take 32 = blob := List.take_of_length_le (by omega)
    have hivlen : (encodeFromHexString (blob.take 32)).length = blob.length / 2 := by
      rw [htk]
      exact encodeFromHexString_length blob
    rw [decryptStage, aesCbcDecrypt, if_neg]
    rintro ⟨h16, -⟩
    rw [hivlen] at h16
    omega
  cases hd : decryptStage d blob with
  | none =>
    have hm : decryptConfigModel parse d blob st = (st, false) := by
      simp [decryptConfigModel, hd]
    rw [hm]
    refine ⟨fun _ => rfl, fun hcon => ?_, fun _ => ⟨rfl, rfl⟩⟩
    simp at hcon
  | some bytes =>
    cases hp : parse bytes with
    | none =>
      have hm : decryptConfigModel parse d blob st = (st, false) := by
        simp [decryptConfigModel, hd, hp]
      rw [hm]
      refine ⟨fun _ => rfl, fun hcon => ?_, fun _ => ⟨rfl, rfl⟩⟩
      simp at hcon
    | some svcs =>
      have hm : decryptConfigModel parse d blob st = (svcs, true) := by
        simp [decryptConfigModel, hd, hp]
      rw [hm]
      refine ⟨fun hcon => ?_, fun _ => ⟨bytes, rfl, by simp [hp]⟩, fun hlen => ?_⟩
      · simp at hcon
      · rw [hshort hlen] at hd
        simp at hd

/-- C5 witness: the 10-character hex blob of the spec scenario fails and the
registry keeps its previous single record. -/
theorem c5_registry_on_failure_witness :
    (decryptConfigModel (fun _ => some []) id "0123456789".toList
      [⟨"x.org", 1, none⟩]).2 = false ∧
    (decryptConfigModel (fun _ => some []) id "0123456789".toList
      [⟨"x.org", 1, none⟩]).1 = [⟨"x.org", 1, none⟩] :=
  (c5_registry_on_failure (fun _ => some []) id "0123456789".toList
    [⟨"x.org", 1, none⟩]).2.2 (by decide)

lemma sortServices_perm (l : List Service) : List.Perm (sortServices l) l :=
  List.perm_insertionSort _ l

lemma sortServices_sorted (l : List Service) :
    (sortServices l).Pairwise (fun a b => a.name ≤ b.name) := by
  haveI : IsTotal Service (fun a b => a.name ≤ b.name) :=
    ⟨fun a b => le_total a.name b.name⟩
  haveI : IsTrans Service (fun a b => a.name ≤ b.name) :=
    ⟨fun _ _ _ hab hbc => le_trans hab hbc⟩
  exact List.sorted_insertionSort _ l

lemma addService_dup (st : List Service) (nm : String)
    (h : ∃ s ∈ st, s.name = jsTrim nm) : addService st nm = (none, st) := by
  have hany : st.any (fun s => s.name = jsTrim nm) = true := by
    simp only [List.any_eq_true, decide_eq_true_eq]
    obtain ⟨s, hs, he⟩ := h
    exact ⟨s, hs, he⟩
  simp [addService, hany]

lemma addService_fresh (st : List Service) (nm : String)
    (h : ∀ s ∈ st, s.name ≠ jsTrim nm) :
    addService st nm =
      (some ⟨jsTrim nm, 1, none⟩, sortServices (st ++ [⟨jsTrim nm, 1, none⟩])) := by
  have hany : st.any (fun s => s.name = jsTrim nm) = false := by
    simp only [List.any_eq_false, decide_eq_true_eq]
    exact h
  simp [addService, hany]

lemma addService_nodup (st : List Service) (nm : String)
    (hno : (st.map Service.name).Nodup) :
    ((addService st nm).2.map Service.name).Nodup := by
  by_cases h : ∃ s ∈ st, s.name = jsTrim nm
  · rw [addService_dup st nm h]
    exact hno
  · push_neg at h
    rw [addService_fresh st nm h]
    have hperm : List.Perm ((sortServices (st ++ [⟨jsTrim nm, 1, none⟩])).map Service.name)
        ((st ++ [(⟨jsTrim nm, 1, none⟩ : Service)]).map Service.name) :=
      (sortServices_perm _).map _
    rw [hperm.nodup_iff, List.map_append]
    rw [List.nodup_append]
    refine ⟨hno, by simp, ?_⟩
    intro y hy
    obtain ⟨s, hs, he⟩ := List.mem_map.mp hy
    simp only [List.map_cons, List.map_nil, List.mem_singleton]
    intro hcon
    exact h s hs (he.trans hcon)

lemma addService_sorted (st : List Service) (nm : String)
    (hs : st.Pairwise (fun a b => a.name ≤ b.name)) :
    (addService st nm).2.Pairwise (fun a b => a.name ≤ b.name) := by
  by_cases h : ∃ s ∈ st, s.name = jsTrim nm
  · rw [addService_dup st nm h]
    exact hs
  · push_neg at h
    rw [addService_fresh st nm h]
    exact sortServices_sorted _

lemma addService_count_one (st : List Service) (nm : String)
    (hno : (st.map Service.name).Nodup) :
    ((addService st nm).2.map Service.name).count (jsTrim nm) = 1 := by
  by_cases h : ∃ s ∈ st, s.name = jsTrim nm
  · rw [addService_dup st nm h]
    obtain ⟨s, hs, he⟩ := h
    exact List.count_eq_one_of_mem hno (List.mem_map.mpr ⟨s, hs, he⟩)
  · push_neg at h
    rw [addService_fresh st nm h]
    have hperm : List.Perm ((sortServices (st ++ [⟨jsTrim nm, 1, none⟩])).map Service.name)
        ((st ++ [(⟨jsTrim nm, 1, none⟩ : Service)]).map Service.name) :=
      (sortServices_perm _).map _
    rw [hperm.count_eq, List.map_append, List.count_append]
    have h0 : (st.map Service.name).count (jsTrim nm) = 0 := by
      rw [List.count_eq_zero]
      intro hmem
      obtain ⟨s, hs, he⟩ := List.mem_map.mp hmem
      exact h s hs he
    rw [h0]
    simp

lemma addService_twice_count (st : List Service) (nm : String)
    (hno : (st.map Service.name).Nodup) :
    ((addService (addService st nm).2 nm).2.map Service.name).count (jsTrim nm) = 1 := by
  have h1c := addService_count_one st nm hno
  have hmem : jsTrim nm ∈ (addService st nm).2.map Service.name := by
    by_contra hcon
    rw [List.count_eq_zero.mpr hcon] at h1c
    simp at h1c
  obtain ⟨s, hs, he⟩ := List.mem_map.mp hmem
  rw [addService_dup _ nm ⟨s, hs, he⟩]
  exact h1c

lemma addAll_nodup : ∀ (names : List String) (st : List Service),
    (st.map Service.name).Nodup → ((addAll st names).map Service.name).Nodup
  | [], _, h => h
  | n :: rest, st, h => addAll_nodup rest _ (addService_nodup st n h)

lemma addAll_sorted : ∀ (names : List String) (st : List Service),
    st.Pairwise (fun a b => a.name ≤ b.name) →
    (addAll st names).Pairwise (fun a b => a.name ≤ b.name)
  | [], _, h => h
  | n :: rest, st, h => addAll_sorted rest _ (addService_sorted st n h)

/-- C6: addService trims the name; on an existing identical name it changes
nothing and returns nothing; otherwise it returns the created record with
iterations 1 and no pattern and the registry becomes the sorted extension by
that record; name-uniqueness is preserved, adding the same name twice leaves
exactly one record with that name, and every addService sequence from the
empty registry yields a duplicate-free registry sorted by name ascending. -/
theorem c6_add_service (st : List Service) (nm : String) :
    ((∃ s ∈ st, s.name = jsTrim nm) → addService st nm = (none, st)) ∧
    ((∀ s ∈ st, s.name ≠ jsTrim nm) →
      (addService st nm).1 = some ⟨jsTrim nm, 1, none⟩ ∧
      List.Perm (addService st nm).2 (st ++ [⟨jsTrim nm, 1, none⟩]) ∧
      (addService st nm).2.Pairwise (fun a b => a.name ≤ b.name)) ∧
    ((st.map Service.name).Nodup → ((addService st nm).2.map Service.name).Nodup) ∧
    ((st.map Service.name).Nodup →
      ((addService (addService st nm).2 nm).2.map Service.name).count (jsTrim nm) = 1) ∧
    (∀ names : List String,
      ((addAll [] names).map Service.name).Nodup ∧
      (addAll [] names).Pairwise (fun a b => a.name ≤ b.name)) := by
  refine ⟨fun h => addService_dup st nm h, fun h => ?_, addService_nodup st nm,
    addService_twice_count st nm,
    fun names => ⟨addAll_nodup names [] (by simp), addAll_sorted names [] (by simp)⟩⟩
  rw [addService_fresh st nm h]
  exact ⟨rfl, sortServices_perm _, sortServices_sorted _⟩

/-- C6 witness: adding a.com to the empty registry creates the record, and
adding it twice leaves exactly one record with that name. -/
theorem c6_add_service_witness :
    (addService [] "a.com").1 = some ⟨jsTrim "a.com", 1, none⟩ ∧
    ((addService (addService [] "a.com").2 "a.com").2.map Service.name).count
      (jsTrim "a.com") = 1 :=
  ⟨((c6_add_service [] "a.com").2.1 (by simp)).1,
   (c6_add_service [] "a.com").2.2.2.1 (by simp)⟩

end M41nk3y
